import Mathlib

set_option maxRecDepth 100000
set_option maxHeartbeats 1000000

/-!
# PassStore OTP core — shallow embedding and verification

This file embeds the OTP engine of the PassStore repository
(`otpauth.py`, the `OneTimePass` metadata model of `main.py`) into
Lean 4 and proves/refutes the frozen specification claims about it.

Conventions of the embedding:
* Python `bytes` values are `List Nat`, each element intended `< 256`.
* Machine words are `Nat` reduced `% 2 ^ 32` (resp. `% 2 ^ 64`) exactly
  where the Python code's fixed-width operations demand it.
* Fallible Python code (operations that can raise) is embedded in
  `Except PyErr`; a caught-and-discarded exception becomes `Option`.
-/

namespace PassStore

/-- The Python exceptions the embedded code can raise. -/
inductive PyErr
  | typeError
  | valueError
  | binasciiError
  deriving DecidableEq, Repr

/-! ## Byte and word helpers -/

/-- Truncate to an unsigned 32-bit value. -/
def u32 (n : Nat) : Nat := n % 4294967296

/-- Rotate a 32-bit value left by `b` bits (`b ≤ 32`). -/
def rotl (b n : Nat) : Nat :=
  u32 ((n <<< b) + (n >>> (32 - b)))

/-- Big-endian bytes of `n`, exactly `k` bytes (like `int.to_bytes(k, 'big')`
with the value already reduced modulo `2^(8k)`). -/
def beBytes : Nat → Nat → List Nat
  | 0, _ => []
  | k + 1, n => beBytes k (n / 256) ++ [n % 256]

/-- Big-endian integer value of a byte list (like `int.from_bytes(_, 'big')`
and `struct.unpack('>I', _)`). -/
def beVal (l : List Nat) : Nat :=
  l.foldl (fun acc b => acc * 256 + b) 0

/-! ## SHA-1 (the compression function used by `hmac.digest(_, _, hashlib.sha1)`) -/

/-- SHA-1 processing state: the five 32-bit chaining values. -/
structure Sha1State where
  h0 : Nat
  h1 : Nat
  h2 : Nat
  h3 : Nat
  h4 : Nat
  deriving Repr, DecidableEq

/-- Initial SHA-1 chaining values. -/
def sha1Init : Sha1State :=
  ⟨0x67452301, 0xEFCDAB89, 0x98BADCFE, 0x10325476, 0xC3D2E1F0⟩

/-- Split the first `k` 4-byte groups of a byte list into big-endian
32-bit words. -/
def beWords : Nat → List Nat → List Nat
  | 0, _ => []
  | k + 1, bs => beVal (bs.take 4) :: beWords k (bs.drop 4)

/-- Extend 16 message words to 80 via the SHA-1 word recurrence.  The
accumulator holds the words generated so far, most recent first. -/
def sha1Extend : Nat → List Nat → List Nat
  | 0, acc => acc.reverse
  | n + 1, acc =>
      let w := rotl 1 (acc.getD 2 0 ^^^ acc.getD 7 0 ^^^ acc.getD 13 0 ^^^ acc.getD 15 0)
      sha1Extend n (w :: acc)

/-- One SHA-1 round: `st = (a, b, c, d, e)`, `iw = (round index, word)`. -/
def sha1Round (st : Nat × Nat × Nat × Nat × Nat) (iw : Nat × Nat) : Nat × Nat × Nat × Nat × Nat :=
  let (a, b, c, d, e) := st
  let (i, w) := iw
  let f :=
    if i < 20 then (b &&& c) ||| ((b ^^^ 0xFFFFFFFF) &&& d)
    else if i < 40 then b ^^^ c ^^^ d
    else if i < 60 then (b &&& c) ||| (b &&& d) ||| (c &&& d)
    else b ^^^ c ^^^ d
  let k :=
    if i < 20 then 0x5A827999
    else if i < 40 then 0x6ED9EBA1
    else if i < 60 then 0x8F1BBCDC
    else 0xCA62C1D6
  let temp := u32 (rotl 5 a + f + e + k + w)
  (temp, a, rotl 30 b, c, d)

/-- Process one 64-byte block. -/
def sha1Block (hs : Sha1State) (block : List Nat) : Sha1State :=
  let ws := sha1Extend 64 (beWords 16 block).reverse
  let (a, b, c, d, e) := ws.enum.foldl sha1Round (hs.h0, hs.h1, hs.h2, hs.h3, hs.h4)
  ⟨u32 (hs.h0 + a), u32 (hs.h1 + b), u32 (hs.h2 + c), u32 (hs.h3 + d), u32 (hs.h4 + e)⟩

/-- Process the padded message block by block; `fuel` bounds the number of
64-byte blocks left. -/
def sha1Blocks : Nat → List Nat → Sha1State → Sha1State
  | 0, _, hs => hs
  | fuel + 1, bytes, hs =>
      match bytes with
      | [] => hs
      | _ => sha1Blocks fuel (bytes.drop 64) (sha1Block hs (bytes.take 64))

/-- SHA-1 padding: `0x80`, zeros, then the bit length as 8 big-endian bytes,
to a multiple of 64 bytes. -/
def sha1Pad (msg : List Nat) : List Nat :=
  let l := msg.length
  let zeros := (64 - (l + 9) % 64) % 64
  msg ++ 0x80 :: List.replicate zeros 0 ++ beBytes 8 (8 * l)

/-- The 20-byte SHA-1 digest of a byte list. -/
def sha1 (msg : List Nat) : List Nat :=
  let padded := sha1Pad msg
  let hs := sha1Blocks (padded.length / 64) padded sha1Init
  beBytes 4 hs.h0 ++ beBytes 4 hs.h1 ++ beBytes 4 hs.h2 ++ beBytes 4 hs.h3 ++ beBytes 4 hs.h4

/-! ## HMAC-SHA1 (`hmac.digest(key, msg, hashlib.sha1)`) -/

/-- HMAC-SHA1 over byte lists, block size 64. -/
def hmacSha1 (key msg : List Nat) : List Nat :=
  let k0 := if key.length > 64 then sha1 key else key
  let k := k0 ++ List.replicate (64 - k0.length) 0
  let ipad := k.map (· ^^^ 0x36)
  let opad := k.map (· ^^^ 0x5C)
  sha1 (opad ++ sha1 (ipad ++ msg))

/-! ## Base32 (`base64.b32encode` / `base64.b32decode`, as called by the source) -/

/-- The RFC 4648 Base32 alphabet. -/
def b32alphabet : List Char := "ABCDEFGHIJKLMNOPQRSTUVWXYZ234567".toList

/-- Value of one Base32 character (`_b32rev` lookup); `none` is Python's
`KeyError` on a non-alphabet character. -/
def b32rev (c : Char) : Option Nat := b32alphabet.indexOf? c

/-- The 8 characters encoding one 40-bit group. -/
def b32encGroup (c : Nat) : List Char :=
  (List.range 8).map fun j => b32alphabet.getD ((c >>> (35 - 5 * j)) &&& 31) 'A'

/-- Encode the zero-padded byte string in 5-byte groups; `fuel` bounds the
number of groups left. -/
def b32encChunks : Nat → List Nat → List Char
  | 0, _ => []
  | fuel + 1, bs =>
      match bs with
      | [] => []
      | _ => b32encGroup (beVal (bs.take 5)) ++ b32encChunks fuel (bs.drop 5)

/-- Number of `=` pad characters appended for a given leftover byte
count (`len(b) % 5`). -/
def b32npad (leftover : Nat) : Nat :=
  if leftover = 1 then 6
  else if leftover = 2 then 4
  else if leftover = 3 then 3
  else if leftover = 4 then 1
  else 0

/-- `base64.b32encode`: zero-pad the input to a multiple of 5 bytes, encode
each 5-byte group as 8 characters, then overwrite the tail with `=` pad
characters according to the leftover byte count. -/
def b32encode (b : List Nat) : List Char :=
  let padded := b ++ List.replicate ((5 - b.length % 5) % 5) 0
  let encoded := b32encChunks (padded.length / 5 + 1) padded
  let npad := b32npad (b.length % 5)
  encoded.take (encoded.length - npad) ++ List.replicate npad '='

/-- Drop `=` characters from the right end of a string (`rstrip('=')`). -/
def rstripEq (s : List Char) : List Char :=
  (s.reverse.dropWhile (· = '=')).reverse

/-- Python `str.strip('=')`: drop `=` from both ends. -/
def stripEq (s : List Char) : List Char :=
  rstripEq (s.dropWhile (· = '='))

/-- One step of the quantum accumulation `acc = (acc << 5) + b32rev[c]`;
a failed alphabet lookup is Python's `KeyError`, re-raised as
`binascii.Error`. -/
def b32revStep (acc : Nat) (c : Char) : Except PyErr Nat :=
  match b32rev c with
  | some v => .ok (acc * 32 + v)
  | none => .error PyErr.binasciiError

/-- Decode the `=`-stripped character string in 8-character groups,
returning the concatenated 5-byte groups together with the accumulator of
the last group processed; `fuel` bounds the number of groups left. -/
def b32decChunks : Nat → List Char → Except PyErr (List Nat × Nat)
  | 0, _ => .ok ([], 0)
  | fuel + 1, s =>
      match s with
      | [] => .ok ([], 0)
      | _ => do
          let acc ← (s.take 8).foldlM b32revStep 0
          let (rest, lastAcc) ← b32decChunks fuel (s.drop 8)
          .ok (beBytes 5 acc ++ rest, if s.drop 8 = [] then acc else lastAcc)

/-- `base64.b32decode` (default arguments): the length must be a multiple
of 8; trailing `=` are stripped and counted; full quanta are decoded 8
characters to 5 bytes; the final partial quantum is fixed up from the last
accumulator and the pad count. -/
def b32decode (s : List Char) : Except PyErr (List Nat) :=
  if s.length % 8 ≠ 0 then .error PyErr.binasciiError
  else
    let stripped := rstripEq s
    let padchars := s.length - stripped.length
    match b32decChunks (stripped.length / 8 + 1) stripped with
    | .error e => .error e
    | .ok (decoded, acc) =>
        if ¬(padchars = 0 ∨ padchars = 1 ∨ padchars = 3 ∨ padchars = 4 ∨ padchars = 6) then
          .error PyErr.binasciiError
        else if padchars ≠ 0 ∧ decoded ≠ [] then
          let last := beBytes 5 (acc <<< (5 * padchars))
          let leftover := (43 - 5 * padchars) / 8
          .ok (decoded.take (decoded.length - 5) ++ last.take leftover)
        else .ok decoded

/-- `OtpAuth.encoded_secret`: Base32-encode the raw secret and strip the
`=` pad characters. -/
def encoded_secret (secret : List Nat) : String :=
  ⟨stripEq (b32encode secret)⟩

/-- Modelled from the spec: §4.1 SecretCodec.decode, which is absent from
the source (the source calls `base64.b32decode` directly, without
re-padding).  Re-pad the text with `=` until its length is a multiple of
8, then Base32-decode. -/
def decodeRepad (s : String) : Except PyErr (List Nat) :=
  let l := s.toList
  b32decode (l ++ List.replicate ((8 - l.length % 8) % 8) '=')

/-! ## `otpauth.py`: code generation and validation -/

/-- `'%06d' % token`: decimal representation left-padded with zeros to
width 6. -/
def format06 (n : Nat) : String :=
  let s := Nat.repr n
  ⟨List.replicate (6 - s.length) '0' ++ s.toList⟩

/-- `generate_hotp` (source lines 120-132): Base32-decode the secret,
HMAC-SHA1 it over the 8-byte big-endian counter, dynamically truncate and
format.  The counter is assumed `< 2^64` (beyond that `struct.pack('>Q')`
raises; no claim leaves that range). -/
def generate_hotp (secret : String) (counter : Nat) : Except PyErr String := do
  let key ← b32decode secret.toList
  let msg := beBytes 8 counter
  let digest := hmacSha1 key msg
  let pos := digest.getD 19 0 &&& 0x0f
  let base := beVal ((digest.drop pos).take 4) &&& 0x7fffffff
  let token := base % 1000000
  .ok (format06 token)

/-- `generate_totp` (source lines 135-150), with an explicit whole-second
timestamp (the `None` default reads the wall clock, outside this model).
The period is assumed positive (Python raises `ZeroDivisionError` at 0;
no claim leaves that range). -/
def generate_totp (secret : String) (period timestamp : Nat) : Except PyErr (String × Nat) := do
  let code ← generate_hotp secret (timestamp / period)
  .ok (code, period - timestamp % period)

/-- The superscript and subscript digit characters: Python's
`str.isdigit()` is true for them but `str.isdecimal()` is false, so
`int()` rejects them.  Together with the ASCII digits these make up the
digit characters of the embedding's character domain. -/
def pySuperSubDigit (c : Char) : Bool :=
  c = '¹' || c = '²' || c = '³' ||
  c = '⁰' || c = '⁴' || c = '⁵' || c = '⁶' || c = '⁷' || c = '⁸' || c = '⁹' ||
  c = '₀' || c = '₁' || c = '₂' || c = '₃' || c = '₄' ||
  c = '₅' || c = '₆' || c = '₇' || c = '₈' || c = '₉'

/-- Python `str.isdigit` on one character, over the modelled character
domain (ASCII plus the superscript/subscript digit block): both the
ASCII decimal digits and the superscript/subscript digits are digits. -/
def pyIsDigit (c : Char) : Bool :=
  c.isDigit || pySuperSubDigit c

/-- `valid_code` (source lines 157-159): `str.isdigit()` (non-empty, all
digit characters) and length at most 6. -/
def valid_code (code : String) : Bool :=
  code.toList ≠ [] && code.toList.all pyIsDigit && code.length ≤ 6

/-- Decimal value of an all-ASCII-digit string. -/
def pyInt (code : String) : Nat :=
  code.toList.foldl (fun a c => a * 10 + (c.toNat - 48)) 0

/-- `int(code)` as the validators invoke it, on strings whose characters
are digits in the `pyIsDigit` sense: the parse succeeds exactly when
every character is an ASCII decimal digit; a superscript or subscript
digit (a digit that is not decimal) raises `ValueError`, as does the
empty string. -/
def pyIntParse (code : String) : Except PyErr Nat :=
  if code.toList ≠ [] ∧ code.toList.all Char.isDigit then .ok (pyInt code)
  else .error PyErr.valueError

/-- The Python values the validators pass to `bytes(...)`. -/
inductive PyObj
  | pint (n : Nat)
  | pstr (s : String)
  | ppair (s : String) (n : Nat)

/-- Python `bytes(x)`: an integer yields a zero-filled buffer of that
length; a string without an encoding raises `TypeError`; a tuple is
iterated and its first element, a string, is not an integer, raising
`TypeError`. -/
def pyBytes : PyObj → Except PyErr (List Nat)
  | .pint n => .ok (List.replicate n 0)
  | .pstr _ => .error PyErr.typeError
  | .ppair _ _ => .error PyErr.typeError

/-- `compare_digest` (source lines 162-174), fallback path: `False` on
differing lengths, else an accumulated OR of XORs compared with 0.
(The primary path, `hmac.compare_digest`, computes the same function.) -/
def compare_digest (a b : List Nat) : Bool :=
  if a.length ≠ b.length then false
  else (a.zip b).foldl (fun rv xy => rv ||| (xy.1 ^^^ xy.2)) 0 = 0

/-- The search loop of `valid_hotp`: try counters `i, i+1, ...` for
`trials` steps. -/
def validHotpLoop (secret : String) (codeB : List Nat) : Nat → Nat → Except PyErr (Option Nat)
  | 0, _ => .ok none
  | t + 1, i => do
      let h ← generate_hotp secret i
      let hB ← pyBytes (.pstr h)
      if compare_digest hB codeB then .ok (some i) else validHotpLoop secret codeB t (i + 1)

/-- `OtpAuth.valid_hotp` (source lines 46-60): guard the code, convert it
with `bytes(int(code))`, then search the window `[last+1, last+trials]`.
`.ok none` is Python's `False` (no match); `.error e` is a raised
exception. -/
def valid_hotp (secret code : String) (last trials : Nat) : Except PyErr (Option Nat) :=
  if ¬ valid_code code then .ok none
  else do
    let n ← pyIntParse code
    let codeB ← pyBytes (.pint n)
    validHotpLoop secret codeB trials (last + 1)

/-- `OtpAuth.valid_totp` (source lines 62-74): guard the code, then
compare `bytes(self.totp(...))` with `bytes(int(code))`; the arguments
are evaluated left to right, so the tuple conversion runs before
`int(code)`. -/
def valid_totp (secret code : String) (period timestamp : Nat) : Except PyErr Bool :=
  if ¬ valid_code code then .ok false
  else do
    let t ← generate_totp secret period timestamp
    let tB ← pyBytes (.ppair t.1 t.2)
    let n ← pyIntParse code
    let cB ← pyBytes (.pint n)
    .ok (compare_digest tB cB)

/-- Python `str(n)` for an integer. -/
def pyStrOfInt (n : Int) : String :=
  if n < 0 then "-" ++ Nat.repr n.natAbs else Nat.repr n.natAbs

/-- Python `str.lower()`, character by character (the strings compared
against are the ASCII `"hotp"`/`"totp"`). -/
def pyLowerStr (s : String) : String := ⟨s.toList.map Char.toLower⟩

/-- `OtpAuth.to_uri` (source lines 82-108).  `counter = none` is Python's
`None` default; `some 0` is falsy exactly like `None` under `not counter`. -/
def to_uri (secret ty label issuer : String) (counter : Option Int) : Except PyErr String :=
  let t := pyLowerStr ty
  if ¬(t = "hotp" ∨ t = "totp") then .error PyErr.valueError
  else if t = "hotp" ∧ (counter = none ∨ counter = some 0) then .error PyErr.valueError
  else
    let ret := "otpauth://" ++ t ++ "/" ++ label ++ "?secret=" ++ secret ++ "&issuer=" ++ issuer
    if t = "hotp" then .ok (ret ++ "&counter=" ++ pyStrOfInt (counter.getD 0))
    else .ok ret

/-! ## `main.py`: the `OneTimePass` metadata model -/

/-- `OTPType` (main.py lines 38-41). -/
inductive OTPType
  | UNKNOWN
  | HOTP
  | TOTP
  deriving DecidableEq, Repr

/-- A JSON scalar as Python hands it to `OneTimePass`: the parsed values
of the metadata dictionary. -/
inductive PyVal
  | vstr (s : String)
  | vint (n : Int)
  deriving DecidableEq, Repr

/-- `str.lower()` on a parsed value: raises `AttributeError` (modelled by
`typeError`) when the value is not a string. -/
def pyLower : PyVal → Except PyErr String
  | .vstr s => .ok (pyLowerStr s)
  | _ => .error PyErr.typeError

/-- `OneTimePass.type_from_str` (main.py lines 69-76), applied to a parsed
value: `.lower()` it, then map to the enum with `UNKNOWN` as the default. -/
def type_from_str (kind : PyVal) : Except PyErr OTPType := do
  let l ← pyLower kind
  if l = "totp" then .ok OTPType.TOTP
  else if l = "hotp" then .ok OTPType.HOTP
  else .ok OTPType.UNKNOWN

/-- A parsed JSON object: key/value pairs with distinct keys. -/
abbrev PyDict := List (String × PyVal)

/-- `dict.pop(k)`: the value and the dictionary without it; `KeyError`
(modelled by `valueError`) when the key is absent. -/
def dictPop (d : PyDict) (k : String) : Except PyErr (PyVal × PyDict) :=
  match d.lookup k with
  | some v => .ok (v, d.eraseP (fun p => p.1 == k))
  | none => .error PyErr.valueError

/-- `OneTimePass` (main.py lines 44-49). -/
structure OneTimePass where
  kind : OTPType
  name : PyVal
  secret : PyVal
  issuer : PyVal
  deriving DecidableEq, Repr

/-- The body of `OneTimePass.from_json` with the `try` block made
explicit.  The argument is the outcome of `json.loads(config)`, modelled
abstractly as either a parsed dictionary or a raised exception. -/
def from_jsonE (loadResult : Except PyErr PyDict) : Except PyErr OneTimePass := do
  let cfg ← loadResult
  let (tv, cfg) ← dictPop cfg "type"
  let k ← type_from_str tv
  let (n, cfg) ← dictPop cfg "name"
  let (s, cfg) ← dictPop cfg "secret"
  let (i, _) ← dictPop cfg "issuer"
  .ok ⟨k, n, s, i⟩

/-- `OneTimePass.from_json` (main.py lines 51-61): any exception in the
body is caught and turned into `None`. -/
def from_json (loadResult : Except PyErr PyDict) : Option OneTimePass :=
  (from_jsonE loadResult).toOption

/-- The spec's reading of the metadata parse (§6, §9): one fallible
operation that either yields a credential with all four fields bound to
the dictionary's values, or nothing.  Stated in the `Option` monad to
compare with `from_json`. -/
def specParse (loadResult : Except PyErr PyDict) : Option OneTimePass := do
  let d ← loadResult.toOption
  let tv ← d.lookup "type"
  let k ← (type_from_str tv).toOption
  let d1 := d.eraseP (fun p => p.1 == "type")
  let nv ← d1.lookup "name"
  let d2 := d1.eraseP (fun p => p.1 == "name")
  let sv ← d2.lookup "secret"
  let d3 := d2.eraseP (fun p => p.1 == "secret")
  let iv ← d3.lookup "issuer"
  pure ⟨k, nv, sv, iv⟩

/-- The RFC 4226 Appendix D test secret, the ASCII bytes of
`"12345678901234567890"`. -/
def rfc4226Key : List Nat := "12345678901234567890".toList.map Char.toNat

/-! ## Helper lemmas -/

theorem beBytes_length (k n : Nat) : (beBytes k n).length = k := by
  induction k generalizing n with
  | zero => rfl
  | succ k ih => simp [beBytes, ih]

theorem hmacSha1_length (key msg : List Nat) : (hmacSha1 key msg).length = 20 := by
  simp [hmacSha1, sha1, beBytes_length]

theorem beVal_foldl_shift :
    ∀ (l : List Nat) (acc : Nat),
      l.foldl (fun a b => a * 256 + b) acc = acc * 256 ^ l.length + beVal l := by
  intro l
  induction l with
  | nil => intro acc; simp [beVal]
  | cons x xs ih =>
    intro acc
    have hbv : beVal (x :: xs) = x * 256 ^ xs.length + beVal xs := by
      show xs.foldl (fun a b => a * 256 + b) (0 * 256 + x) = _
      rw [ih]
      ring_nf
    rw [List.foldl_cons, ih, hbv, List.length_cons]
    ring

theorem beVal_append (l1 l2 : List Nat) :
    beVal (l1 ++ l2) = beVal l1 * 256 ^ l2.length + beVal l2 := by
  show (l1 ++ l2).foldl (fun a b => a * 256 + b) 0 = _
  rw [List.foldl_append, beVal_foldl_shift]
  rfl

theorem beVal_replicate_zero (k : Nat) : beVal (List.replicate k 0) = 0 := by
  induction k with
  | zero => rfl
  | succ k ih =>
    show (List.replicate (k + 1) 0).foldl (fun a b => a * 256 + b) 0 = 0
    rw [List.replicate_succ, List.foldl_cons]
    simp only [Nat.mul_zero, Nat.add_zero, Nat.zero_mul]
    exact ih

theorem beVal_lt_aux :
    ∀ (l : List Nat) (acc : Nat), (∀ x ∈ l, x < 256) →
      l.foldl (fun a b => a * 256 + b) acc < (acc + 1) * 256 ^ l.length := by
  intro l
  induction l with
  | nil => intro acc _; simp [beVal]
  | cons x xs ih =>
    intro acc hb
    rw [List.foldl_cons, List.length_cons]
    calc xs.foldl (fun a b => a * 256 + b) (acc * 256 + x)
        < (acc * 256 + x + 1) * 256 ^ xs.length :=
          ih _ (fun y hy => hb y (List.mem_cons_of_mem _ hy))
      _ ≤ (acc + 1) * 256 ^ (xs.length + 1) := by
          have hx : x < 256 := hb x (List.mem_cons_self _ _)
          have h1 : acc * 256 + x + 1 ≤ (acc + 1) * 256 := by nlinarith
          calc (acc * 256 + x + 1) * 256 ^ xs.length
              ≤ ((acc + 1) * 256) * 256 ^ xs.length := Nat.mul_le_mul_right _ h1
            _ = (acc + 1) * 256 ^ (xs.length + 1) := by ring

theorem beVal_lt (l : List Nat) (hb : ∀ x ∈ l, x < 256) : beVal l < 256 ^ l.length := by
  have := beVal_lt_aux l 0 hb
  simpa using this

theorem beVal_singleton (x : Nat) : beVal [x] = x := by simp [beVal]

theorem beBytes_beVal :
    ∀ (l : List Nat), (∀ x ∈ l, x < 256) → beBytes l.length (beVal l) = l := by
  intro l
  induction l using List.reverseRecOn with
  | nil => intro _; rfl
  | append_singleton xs x ih =>
    intro hb
    have hx : x < 256 := hb x (by simp)
    have hxs : ∀ y ∈ xs, y < 256 := fun y hy => hb y (by simp [hy])
    rw [beVal_append, beVal_singleton, List.length_append, List.length_singleton]
    show beBytes (xs.length + 1) (beVal xs * 256 ^ 1 + x) = xs ++ [x]
    rw [beBytes]
    have hdiv : (beVal xs * 256 ^ 1 + x) / 256 = beVal xs := by
      rw [pow_one, Nat.mul_comm, Nat.mul_add_div (by norm_num), Nat.div_eq_of_lt hx]
      omega
    have hmod : (beVal xs * 256 ^ 1 + x) % 256 = x := by
      rw [pow_one, Nat.mul_comm (beVal xs) 256, Nat.mul_add_mod, Nat.mod_eq_of_lt hx]
    rw [hdiv, hmod, ih hxs]

theorem getD_mem_alphabet : ∀ v, v < 32 → b32alphabet.getD v 'A' ∈ b32alphabet := by decide

theorem b32rev_getD : ∀ v, v < 32 → b32rev (b32alphabet.getD v 'A') = some v := by decide

theorem alphabet_ne_pad : ∀ ch ∈ b32alphabet, ¬ (ch = '=') := by decide

theorem b32encGroup_length (c : Nat) : (b32encGroup c).length = 8 := by
  simp [b32encGroup]

theorem b32encGroup_mem {c : Nat} : ∀ ch ∈ b32encGroup c, ch ∈ b32alphabet := by
  intro ch hch
  simp only [b32encGroup, List.mem_map, List.mem_range] at hch
  obtain ⟨j, _, rfl⟩ := hch
  exact getD_mem_alphabet _ (lt_of_le_of_lt Nat.and_le_right (by norm_num))

theorem encGroup_take (c m : Nat) (hm : m ≤ 8) :
    (b32encGroup c).take m =
      (List.range m).map fun j => b32alphabet.getD ((c >>> (35 - 5 * j)) &&& 31) 'A' := by
  unfold b32encGroup
  rw [← List.map_take, List.take_range, Nat.min_eq_left hm]

theorem foldlM_digits :
    ∀ (m c : Nat), m ≤ 8 → c < 2 ^ 40 →
      ((List.range m).map fun j =>
        b32alphabet.getD ((c >>> (35 - 5 * j)) &&& 31) 'A').foldlM b32revStep 0 =
      .ok (c >>> (40 - 5 * m)) := by
  intro m
  induction m with
  | zero =>
    intro c _ hc
    simp only [List.range_zero, List.map_nil, List.foldlM_nil]
    rw [Nat.shiftRight_eq_div_pow, Nat.div_eq_of_lt hc]
    rfl
  | succ m ih =>
    intro c hm hc
    rw [List.range_succ, List.map_append, List.foldlM_append, ih c (by omega) hc]
    have hv : (c >>> (35 - 5 * m)) &&& 31 < 32 :=
      lt_of_le_of_lt Nat.and_le_right (by norm_num)
    simp only [List.map_cons, List.map_nil, List.foldlM_cons, List.foldlM_nil, bind,
      Except.bind, b32revStep, b32rev_getD _ hv]
    show Except.ok _ = Except.ok _
    congr 1
    have h1 : 40 - 5 * m = (35 - 5 * m) + 5 := by omega
    have h2 : 40 - 5 * (m + 1) = 35 - 5 * m := by omega
    rw [h1, h2, Nat.shiftRight_eq_div_pow, Nat.shiftRight_eq_div_pow]
    have hand : c / 2 ^ (35 - 5 * m) &&& 31 = c / 2 ^ (35 - 5 * m) % 32 := by
      have h := Nat.and_pow_two_sub_one_eq_mod (c / 2 ^ (35 - 5 * m)) 5
      norm_num at h
      exact h
    rw [hand, pow_add, ← Nat.div_div_eq_div_mul]
    have h32 : (2 : Nat) ^ 5 = 32 := by norm_num
    rw [h32]
    generalize c / 2 ^ (35 - 5 * m) = y
    omega

theorem foldlM_encGroup_full (c : Nat) (hc : c < 2 ^ 40) :
    (b32encGroup c).foldlM b32revStep 0 = .ok c := by
  have h8 : (b32encGroup c).take 8 = b32encGroup c :=
    List.take_of_length_le (by rw [b32encGroup_length])
  have := foldlM_digits 8 c (le_refl 8) hc
  rw [← encGroup_take c 8 (le_refl 8), h8] at this
  rw [this]
  norm_num

theorem b32decChunks_nil (f : Nat) : b32decChunks f [] = .ok ([], 0) := by
  cases f <;> rfl

theorem b32decChunks_ne_nil (f : Nat) (s : List Char) (h : s ≠ []) :
    b32decChunks (f + 1) s =
      (do
        let acc ← (s.take 8).foldlM b32revStep 0
        let (rest, lastAcc) ← b32decChunks f (s.drop 8)
        Except.ok (beBytes 5 acc ++ rest, if s.drop 8 = [] then acc else lastAcc)) := by
  cases s with
  | nil => exact absurd rfl h
  | cons a t => rfl

theorem b32decChunks_group (c : Nat) (hc : c < 2 ^ 40) (S : List Char) (hS : S ≠ []) (f : Nat) :
    b32decChunks (f + 1) (b32encGroup c ++ S) =
      (b32decChunks f S).map fun p => (beBytes 5 c ++ p.1, p.2) := by
  have hG : (b32encGroup c).length = 8 := b32encGroup_length c
  have hne : b32encGroup c ++ S ≠ [] := by
    intro h
    have := congrArg List.length h
    simp [hG] at this
  rw [b32decChunks_ne_nil f _ hne]
  have htake : (b32encGroup c ++ S).take 8 = b32encGroup c := by
    rw [← hG]; exact List.take_left _ _
  have hdrop : (b32encGroup c ++ S).drop 8 = S := by
    rw [← hG]; exact List.drop_left _ _
  rw [htake, hdrop, foldlM_encGroup_full c hc]
  cases hrec : b32decChunks f S with
  | error e => rfl
  | ok pr =>
    simp only [bind, Except.bind]
    rw [if_neg hS]
    rfl

theorem b32decChunks_single_full (c : Nat) (hc : c < 2 ^ 40) (f : Nat) :
    b32decChunks (f + 1) (b32encGroup c) = .ok (beBytes 5 c, c) := by
  have hG : (b32encGroup c).length = 8 := b32encGroup_length c
  have hne : b32encGroup c ≠ [] := by
    intro h
    have := congrArg List.length h
    simp [hG] at this
  rw [b32decChunks_ne_nil f _ hne]
  have htake : (b32encGroup c).take 8 = b32encGroup c := List.take_of_length_le (by omega)
  have hdrop : (b32encGroup c).drop 8 = [] := List.drop_eq_nil_of_le (by omega)
  rw [htake, hdrop, foldlM_encGroup_full c hc, b32decChunks_nil]
  simp [bind, Except.bind]

theorem b32decChunks_single_partial (c m : Nat) (hm1 : 1 ≤ m) (hm : m ≤ 7) (hc : c < 2 ^ 40)
    (f : Nat) :
    b32decChunks (f + 1) ((b32encGroup c).take m) =
      .ok (beBytes 5 (c >>> (40 - 5 * m)), c >>> (40 - 5 * m)) := by
  have hG : (b32encGroup c).length = 8 := b32encGroup_length c
  have hlen : ((b32encGroup c).take m).length = m := by
    rw [List.length_take, hG]; omega
  have hne : (b32encGroup c).take m ≠ [] := by
    intro h
    have := congrArg List.length h
    rw [hlen] at this
    simp at this
    omega
  rw [b32decChunks_ne_nil f _ hne]
  have htake : ((b32encGroup c).take m).take 8 = (b32encGroup c).take m :=
    List.take_of_length_le (by omega)
  have hdrop : ((b32encGroup c).take m).drop 8 = [] := List.drop_eq_nil_of_le (by omega)
  have hfold : ((b32encGroup c).take m).foldlM b32revStep 0 = .ok (c >>> (40 - 5 * m)) := by
    rw [encGroup_take c m (by omega)]
    exact foldlM_digits m c (by omega) hc
  rw [htake, hdrop, hfold, b32decChunks_nil]
  simp [bind, Except.bind]

theorem b32decChunks_ok_len (f : Nat) (s : List Char) (d : List Nat) (a : Nat)
    (hs : s ≠ []) (h : b32decChunks (f + 1) s = .ok (d, a)) : 5 ≤ d.length := by
  rw [b32decChunks_ne_nil f s hs] at h
  cases hacc : (s.take 8).foldlM b32revStep 0 with
  | error e => rw [hacc] at h; simp [bind, Except.bind] at h
  | ok acc =>
    rw [hacc] at h
    cases hrec : b32decChunks f (s.drop 8) with
    | error e => rw [hrec] at h; simp [bind, Except.bind] at h
    | ok pr =>
      rw [hrec] at h
      simp only [bind, Except.bind, Except.ok.injEq, Prod.mk.injEq] at h
      rcases h with ⟨h1, -⟩
      rw [← h1, List.length_append, beBytes_length]
      omega

theorem b32encChunks_nil (f : Nat) : b32encChunks f [] = [] := by
  cases f <;> rfl

theorem b32encChunks_cons (f : Nat) (bs : List Nat) (h : bs ≠ []) :
    b32encChunks (f + 1) bs = b32encGroup (beVal (bs.take 5)) ++ b32encChunks f (bs.drop 5) := by
  cases bs with
  | nil => exact absurd rfl h
  | cons a t => rfl

theorem b32encChunks_length :
    ∀ (f : Nat) (bs : List Nat), bs.length ≤ 5 * f → bs.length % 5 = 0 →
      (b32encChunks f bs).length = 8 * (bs.length / 5) := by
  intro f
  induction f with
  | zero =>
    intro bs h _
    have : bs = [] := List.eq_nil_of_length_eq_zero (by omega)
    subst this
    simp [b32encChunks_nil]
  | succ f ih =>
    intro bs h h5
    cases bs with
    | nil => simp [b32encChunks_nil]
    | cons a t =>
      rw [b32encChunks_cons f _ (by simp)]
      have hlen : (a :: t).length = t.length + 1 := by simp
      have h5' : 5 ≤ (a :: t).length := by omega
      have hdl : ((a :: t).drop 5).length = (a :: t).length - 5 := by
        rw [List.length_drop]
      rw [List.length_append, b32encGroup_length,
        ih ((a :: t).drop 5) (by omega) (by omega)]
      rw [hdl]
      omega

theorem b32encChunks_mem :
    ∀ (f : Nat) (bs : List Nat), ∀ ch ∈ b32encChunks f bs, ch ∈ b32alphabet := by
  intro f
  induction f with
  | zero =>
    intro bs ch hch
    rw [show b32encChunks 0 bs = [] from rfl] at hch
    cases hch
  | succ f ih =>
    intro bs ch hch
    cases bs with
    | nil => simp [b32encChunks_nil] at hch
    | cons a t =>
      rw [b32encChunks_cons f _ (by simp)] at hch
      rcases List.mem_append.mp hch with hg | hr
      · exact b32encGroup_mem ch hg
      · exact ih _ ch hr

theorem b32npad_le (lo : Nat) : b32npad lo ≤ 6 := by
  unfold b32npad
  split_ifs <;> norm_num

theorem b32encode_def (b : List Nat) :
    b32encode b =
      (b32encChunks ((b ++ List.replicate ((5 - b.length % 5) % 5) 0).length / 5 + 1)
          (b ++ List.replicate ((5 - b.length % 5) % 5) 0)).take
        ((b32encChunks ((b ++ List.replicate ((5 - b.length % 5) % 5) 0).length / 5 + 1)
            (b ++ List.replicate ((5 - b.length % 5) % 5) 0)).length -
          b32npad (b.length % 5)) ++
      List.replicate (b32npad (b.length % 5)) '=' := rfl

theorem dropWhile_replicate_pad (l : List Char) (n : Nat) :
    List.dropWhile (· = '=') (List.replicate n '=' ++ l) = List.dropWhile (· = '=') l := by
  induction n with
  | zero => rfl
  | succ n ih =>
    rw [List.replicate_succ, List.cons_append]
    simp only [List.dropWhile_cons, decide_eq_true_eq, if_true]
    exact ih

theorem dropWhile_alphabet (X : List Char) (hX : ∀ ch ∈ X, ch ∈ b32alphabet) :
    List.dropWhile (· = '=') X = X := by
  cases X with
  | nil => rfl
  | cons a t =>
    have ha : ¬ (a = '=') := alphabet_ne_pad a (hX a (List.mem_cons_self _ _))
    simp only [List.dropWhile_cons, decide_eq_true_eq]
    rw [if_neg ha]

theorem rstrip_append_pad (X : List Char) (p : Nat) (hX : ∀ ch ∈ X, ch ∈ b32alphabet) :
    rstripEq (X ++ List.replicate p '=') = X := by
  unfold rstripEq
  rw [List.reverse_append, List.reverse_replicate, dropWhile_replicate_pad]
  rw [dropWhile_alphabet X.reverse (fun ch hch => hX ch (List.mem_reverse.mp hch))]
  exact List.reverse_reverse X

theorem stripEq_append_pad (X : List Char) (p : Nat) (hX : ∀ ch ∈ X, ch ∈ b32alphabet)
    (hne : X ≠ []) : stripEq (X ++ List.replicate p '=') = X := by
  unfold stripEq
  have h1 : List.dropWhile (· = '=') (X ++ List.replicate p '=') =
      X ++ List.replicate p '=' := by
    cases X with
    | nil => exact absurd rfl hne
    | cons a t =>
      have ha : ¬ (a = '=') := alphabet_ne_pad a (hX a (List.mem_cons_self _ _))
      rw [List.cons_append]
      simp only [List.dropWhile_cons, decide_eq_true_eq]
      rw [if_neg ha]
  rw [h1, rstrip_append_pad X p hX]

theorem b32encode_nil : b32encode [] = [] := rfl

theorem b32encode_cons_group (g rest : List Nat) (hg : g.length = 5) :
    b32encode (g ++ rest) = b32encGroup (beVal g) ++ b32encode rest := by
  have hmod : (g ++ rest).length % 5 = rest.length % 5 := by
    rw [List.length_append, hg]
    omega
  rw [b32encode_def (g ++ rest), b32encode_def rest, hmod]
  rw [List.append_assoc]
  set R := rest ++ List.replicate ((5 - rest.length % 5) % 5) 0 with hR
  have hRmod : R.length % 5 = 0 := by
    rw [hR, List.length_append, List.length_replicate]
    omega
  have hglen : (g ++ R).length = 5 + R.length := by rw [List.length_append, hg]
  have hfuel : (g ++ R).length / 5 + 1 = (R.length / 5 + 1) + 1 := by
    rw [hglen]; omega
  have hgne : g ++ R ≠ [] := by
    intro h
    have := congrArg List.length h
    rw [hglen] at this
    simp at this
  have htk : (g ++ R).take 5 = g := by rw [← hg]; exact List.take_left _ _
  have hdp : (g ++ R).drop 5 = R := by rw [← hg]; exact List.drop_left _ _
  rw [hfuel, b32encChunks_cons _ _ hgne, htk, hdp]
  set E := b32encChunks (R.length / 5 + 1) R with hE
  set np := b32npad (rest.length % 5) with hnp
  have hnp6 : np ≤ 6 := b32npad_le _
  rcases eq_or_ne rest [] with rfl | hrest
  · have hR0 : R = [] := by rw [hR]; rfl
    have hE0 : E = [] := by rw [hE, hR0, b32encChunks_nil]
    have hnp0 : np = 0 := by rw [hnp]; rfl
    rw [hE0, hnp0]
    simp
  · have hRlen : 5 ≤ R.length := by
      have : rest.length ≠ 0 := fun h => hrest (List.eq_nil_of_length_eq_zero h)
      rw [hR, List.length_append, List.length_replicate]
      omega
    have hElen : E.length = 8 * (R.length / 5) := by
      rw [hE]
      exact b32encChunks_length _ R (by omega) hRmod
    have hE8 : 8 ≤ E.length := by rw [hElen]; omega
    have hsplit : (b32encGroup (beVal g) ++ E).length - np =
        (b32encGroup (beVal g)).length + (E.length - np) := by
      rw [List.length_append, b32encGroup_length]
      omega
    rw [hsplit, List.take_append, List.append_assoc]

theorem b32encode_parts (b : List Nat) :
    (∀ ch ∈ rstripEq (b32encode b), ch ∈ b32alphabet) ∧
    (b32encode b).length % 8 = 0 ∧
    b32encode b = rstripEq (b32encode b) ++
      List.replicate ((b32encode b).length - (rstripEq (b32encode b)).length) '=' ∧
    (b32encode b).length - (rstripEq (b32encode b)).length ≤ 6 ∧
    (b ≠ [] → rstripEq (b32encode b) ≠ [] ∧ 8 ≤ (b32encode b).length) := by
  rcases eq_or_ne b [] with rfl | hb
  · refine ⟨?_, ?_, ?_, ?_, ?_⟩ <;> simp [b32encode_nil, rstripEq]
  · rw [b32encode_def b]
    set P := b ++ List.replicate ((5 - b.length % 5) % 5) 0 with hP
    set E := b32encChunks (P.length / 5 + 1) P with hE
    set np := b32npad (b.length % 5) with hnp
    have hPmod : P.length % 5 = 0 := by
      rw [hP, List.length_append, List.length_replicate]
      omega
    have hPlen : 5 ≤ P.length := by
      have : b.length ≠ 0 := fun h => hb (List.eq_nil_of_length_eq_zero h)
      rw [hP, List.length_append, List.length_replicate]
      omega
    have hElen : E.length = 8 * (P.length / 5) := by
      rw [hE]
      exact b32encChunks_length _ P (by omega) hPmod
    have hE8 : 8 ≤ E.length := by rw [hElen]; omega
    have hnp6 : np ≤ 6 := b32npad_le _
    have hXmem : ∀ ch ∈ E.take (E.length - np), ch ∈ b32alphabet := by
      intro ch hch
      exact b32encChunks_mem _ P ch (List.take_subset _ _ hch)
    have hstrip : rstripEq (E.take (E.length - np) ++ List.replicate np '=') =
        E.take (E.length - np) := rstrip_append_pad _ np hXmem
    have hXlen : (E.take (E.length - np)).length = E.length - np := by
      rw [List.length_take]
      omega
    have htotal : (E.take (E.length - np) ++ List.replicate np '=').length = E.length := by
      rw [List.length_append, List.length_replicate, hXlen]
      omega
    refine ⟨?_, ?_, ?_, ?_, ?_⟩
    · rw [hstrip]; exact hXmem
    · rw [htotal, hElen]; omega
    · rw [hstrip, htotal]
      have : E.length - (E.length - np) = np := by omega
      rw [hXlen, this]
    · rw [hstrip, htotal, hXlen]; omega
    · intro _
      constructor
      · rw [hstrip]
        intro h
        have := congrArg List.length h
        rw [hXlen] at this
        simp at this
        omega
      · rw [htotal]; omega

theorem b32decode_eval (X : List Char) (p : Nat) (d : List Nat) (a : Nat)
    (hmem : ∀ ch ∈ X, ch ∈ b32alphabet)
    (hch : b32decChunks (X.length / 8 + 1) X = .ok (d, a))
    (hlen8 : (X.length + p) % 8 = 0) :
    b32decode (X ++ List.replicate p '=') =
      if ¬(p = 0 ∨ p = 1 ∨ p = 3 ∨ p = 4 ∨ p = 6) then .error PyErr.binasciiError
      else if p ≠ 0 ∧ d ≠ [] then
        .ok (d.take (d.length - 5) ++ (beBytes 5 (a <<< (5 * p))).take ((43 - 5 * p) / 8))
      else .ok d := by
  simp only [b32decode]
  have hlen : (X ++ List.replicate p '=').length = X.length + p := by
    rw [List.length_append, List.length_replicate]
  rw [if_neg (by rw [hlen]; exact not_not_intro hlen8)]
  rw [rstrip_append_pad X p hmem]
  have hpad : (X ++ List.replicate p '=').length - X.length = p := by rw [hlen]; omega
  rw [hpad, hch]

theorem b32decode_eval_error (X : List Char) (p : Nat) (e : PyErr)
    (hmem : ∀ ch ∈ X, ch ∈ b32alphabet)
    (hch : b32decChunks (X.length / 8 + 1) X = .error e)
    (hlen8 : (X.length + p) % 8 = 0) :
    b32decode (X ++ List.replicate p '=') = .error e := by
  simp only [b32decode]
  have hlen : (X ++ List.replicate p '=').length = X.length + p := by
    rw [List.length_append, List.length_replicate]
  rw [if_neg (by rw [hlen]; exact not_not_intro hlen8)]
  rw [rstrip_append_pad X p hmem]
  rw [hch]

theorem b32_roundtrip_nil : b32decode (b32encode []) = .ok [] := rfl

theorem b32_roundtrip_small (T : List Nat) (hb : ∀ x ∈ T, x < 256) (h1 : 1 ≤ T.length)
    (h4 : T.length ≤ 4) : b32decode (b32encode T) = .ok T := by
  set t := T.length with ht
  set np := b32npad t with hnp
  have hcases : (t = 1 ∧ np = 6) ∨ (t = 2 ∧ np = 4) ∨ (t = 3 ∧ np = 3) ∨ (t = 4 ∧ np = 1) := by
    have h14 : t = 1 ∨ t = 2 ∨ t = 3 ∨ t = 4 := by omega
    rcases h14 with h | h | h | h <;> rw [hnp, h] <;> simp [b32npad]
  have hnp16 : 1 ≤ np ∧ np ≤ 6 := by rcases hcases with ⟨-, h⟩ | ⟨-, h⟩ | ⟨-, h⟩ | ⟨-, h⟩ <;> omega
  set P := T ++ List.replicate (5 - t) 0 with hP
  have hPlen : P.length = 5 := by rw [hP, List.length_append, List.length_replicate]; omega
  set c := beVal P with hc
  have hPb : ∀ x ∈ P, x < 256 := by
    intro x hx
    rcases List.mem_append.mp hx with h | h
    · exact hb x h
    · have := List.eq_of_mem_replicate h
      omega
  have hclt : c < 2 ^ 40 := by
    have h := beVal_lt P hPb
    rw [hPlen] at h
    have h2 : (256 : Nat) ^ 5 = 2 ^ 40 := by norm_num
    rw [h2] at h
    exact h
  have hPbe : beBytes 5 c = P := by
    have := beBytes_beVal P hPb
    rw [hPlen] at this
    exact this
  have hencT : b32encode T = (b32encGroup c).take (8 - np) ++ List.replicate np '=' := by
    rw [b32encode_def T, ← ht]
    have hmod5 : t % 5 = t := by omega
    rw [hmod5]
    have hzeq : (5 - t) % 5 = 5 - t := by omega
    rw [hzeq, ← hP, hPlen]
    have hf : (5 : Nat) / 5 + 1 = 1 + 1 := by norm_num
    rw [hf]
    have hPne : P ≠ [] := by
      intro h
      have := congrArg List.length h
      rw [hPlen] at this
      simp at this
    have htk5 : P.take 5 = P := List.take_of_length_le (by omega)
    have hdp5 : P.drop 5 = [] := List.drop_eq_nil_of_le (by omega)
    rw [b32encChunks_cons 1 P hPne, htk5, hdp5, b32encChunks_nil, List.append_nil, ← hc,
      b32encGroup_length, ← hnp]
  rw [hencT]
  set K := (b32encGroup c).take (8 - np) with hK
  have hKlen : K.length = 8 - np := by
    rw [hK, List.length_take, b32encGroup_length]
    omega
  have hKmem : ∀ ch ∈ K, ch ∈ b32alphabet := fun ch hch =>
    b32encGroup_mem ch (List.take_subset _ _ hch)
  have hfuel : K.length / 8 + 1 = 0 + 1 := by rw [hKlen]; omega
  have hacc : b32decChunks (K.length / 8 + 1) K =
      .ok (beBytes 5 (c >>> (5 * np)), c >>> (5 * np)) := by
    rw [hfuel, hK]
    have hm40 : 40 - 5 * (8 - np) = 5 * np := by omega
    have := b32decChunks_single_partial c (8 - np) (by omega) (by omega) hclt 0
    rw [hm40] at this
    exact this
  rw [b32decode_eval K np _ _ hKmem hacc (by rw [hKlen]; omega)]
  have hguard : np = 0 ∨ np = 1 ∨ np = 3 ∨ np = 4 ∨ np = 6 := by
    rcases hcases with ⟨-, h⟩ | ⟨-, h⟩ | ⟨-, h⟩ | ⟨-, h⟩ <;> omega
  rw [if_neg (not_not_intro hguard)]
  have hdlen : (beBytes 5 (c >>> (5 * np))).length = 5 := beBytes_length _ _
  have hdne : beBytes 5 (c >>> (5 * np)) ≠ [] := by
    intro h
    have := congrArg List.length h
    rw [hdlen] at this
    simp at this
  rw [if_pos ⟨by omega, hdne⟩]
  have hshift : c >>> (5 * np) <<< (5 * np) = c := by
    have hcval : c = beVal T * 2 ^ (8 * (5 - t)) := by
      rw [hc, hP, beVal_append, beVal_replicate_zero, List.length_replicate]
      have : (256 : Nat) ^ (5 - t) = 2 ^ (8 * (5 - t)) := by
        rw [pow_mul]
        norm_num
      rw [this]
      omega
    have hdvd : 2 ^ (5 * np) ∣ c := by
      rw [hcval]
      exact Dvd.dvd.mul_left
        (pow_dvd_pow 2 (by rcases hcases with ⟨h,h'⟩|⟨h,h'⟩|⟨h,h'⟩|⟨h,h'⟩ <;> omega)) _
    rw [Nat.shiftRight_eq_div_pow, Nat.shiftLeft_eq, Nat.div_mul_cancel hdvd]
  rw [hshift, hPbe, hdlen]
  have hlo : (43 - 5 * np) / 8 = t := by
    rcases hcases with ⟨h,h'⟩|⟨h,h'⟩|⟨h,h'⟩|⟨h,h'⟩ <;> rw [h, h']
  rw [hlo]
  have htakeT : P.take t = T := by
    rw [hP, ht]
    exact List.take_left _ _
  rw [htakeT]
  simp

theorem decode_cons_group (g rest : List Nat) (hg : g.length = 5) (hgb : ∀ x ∈ g, x < 256)
    (hrt : b32decode (b32encode rest) = .ok rest) :
    b32decode (b32encode (g ++ rest)) = .ok (g ++ rest) := by
  have hc : beVal g < 2 ^ 40 := by
    have h := beVal_lt g hgb
    rw [hg] at h
    have h2 : (256 : Nat) ^ 5 = 2 ^ 40 := by norm_num
    rw [h2] at h
    exact h
  have hgbe : beBytes 5 (beVal g) = g := by
    have := beBytes_beVal g hgb
    rw [hg] at this
    exact this
  have hG8 : (b32encGroup (beVal g)).length = 8 := b32encGroup_length _
  rw [b32encode_cons_group g rest hg]
  rcases eq_or_ne rest [] with rfl | hrest
  · rw [b32encode_nil, List.append_nil]
    have h0 : b32encGroup (beVal g) =
        b32encGroup (beVal g) ++ List.replicate 0 '=' := by simp
    rw [h0]
    have hfuel : (b32encGroup (beVal g)).length / 8 + 1 = 1 + 1 := by rw [hG8]
    have hacc : b32decChunks ((b32encGroup (beVal g)).length / 8 + 1) (b32encGroup (beVal g)) =
        .ok (beBytes 5 (beVal g), beVal g) := by
      rw [hfuel]
      exact b32decChunks_single_full _ hc 1
    rw [b32decode_eval _ 0 _ _ (fun ch hch => b32encGroup_mem ch hch) hacc
      (by rw [hG8])]
    simp [hgbe]
  · obtain ⟨hmem, hmod8, hparts, hple, hne⟩ := b32encode_parts rest
    obtain ⟨hXne, h8⟩ := hne hrest
    set X := rstripEq (b32encode rest) with hX
    set p := (b32encode rest).length - X.length with hp
    have hlen_eq : (b32encode rest).length = X.length + p := by
      have := congrArg List.length hparts
      rw [List.length_append, List.length_replicate] at this
      omega
    have hlen8X : (X.length + p) % 8 = 0 := by omega
    rw [hparts] at hrt ⊢
    rcases hchX : b32decChunks (X.length / 8 + 1) X with e | pr
    · rw [b32decode_eval_error X p e hmem hchX hlen8X] at hrt
      exact absurd hrt (by simp)
    · obtain ⟨dE, accE⟩ := pr
      rw [b32decode_eval X p dE accE hmem hchX hlen8X] at hrt
      rw [← List.append_assoc]
      have hmemGX : ∀ ch ∈ b32encGroup (beVal g) ++ X, ch ∈ b32alphabet := by
        intro ch hch
        rcases List.mem_append.mp hch with h | h
        · exact b32encGroup_mem ch h
        · exact hmem ch h
      have hchGX : b32decChunks ((b32encGroup (beVal g) ++ X).length / 8 + 1)
          (b32encGroup (beVal g) ++ X) = .ok (g ++ dE, accE) := by
        have hfuel : (b32encGroup (beVal g) ++ X).length / 8 + 1 = (X.length / 8 + 1) + 1 := by
          rw [List.length_append, hG8]
          omega
        rw [hfuel, b32decChunks_group (beVal g) hc X hXne _, hchX, hgbe]
        rfl
      rw [b32decode_eval _ p (g ++ dE) accE hmemGX hchGX
        (by rw [List.length_append, hG8]; omega)]
      by_cases hguard : p = 0 ∨ p = 1 ∨ p = 3 ∨ p = 4 ∨ p = 6
      · rw [if_neg (not_not_intro hguard)] at hrt ⊢
        by_cases hp0 : p = 0
        · rw [if_neg (by rintro ⟨h, -⟩; exact h hp0)] at hrt ⊢
          have hde : dE = rest := by simpa using hrt
          rw [hde]
        · have hdE : dE ≠ [] := by
            intro h0
            rw [if_neg (by rintro ⟨-, h⟩; exact h h0)] at hrt
            have : dE = rest := by simpa using hrt
            exact hrest (by rw [← this, h0])
          have hdE5 : 5 ≤ dE.length := b32decChunks_ok_len _ X dE accE hXne hchX
          rw [if_pos ⟨hp0, hdE⟩] at hrt
          rw [if_pos ⟨hp0, by
            intro h
            exact hdE (List.append_eq_nil.mp h).2⟩]
          have hrt2 : dE.take (dE.length - 5) ++
              (beBytes 5 (accE <<< (5 * p))).take ((43 - 5 * p) / 8) = rest := by
            simpa using hrt
          have htk : (g ++ dE).take ((g ++ dE).length - 5) =
              g ++ dE.take (dE.length - 5) := by
            have hlen2 : (g ++ dE).length - 5 = g.length + (dE.length - 5) := by
              rw [List.length_append, hg]
              omega
            rw [hlen2, List.take_append]
          rw [htk, List.append_assoc, hrt2]
      · rw [if_pos hguard] at hrt
        exact absurd hrt (by simp)

theorem b32_roundtrip_len :
    ∀ (n : Nat) (b : List Nat), b.length ≤ n → (∀ x ∈ b, x < 256) →
      b32decode (b32encode b) = .ok b := by
  intro n
  induction n with
  | zero =>
    intro b hlen _
    have hb : b = [] := List.eq_nil_of_length_eq_zero (by omega)
    subst hb
    exact b32_roundtrip_nil
  | succ n ih =>
    intro b hlen hb
    rcases Nat.lt_or_ge b.length 5 with hsmall | hbig
    · rcases Nat.eq_zero_or_pos b.length with h0 | h1
      · have hb0 : b = [] := List.eq_nil_of_length_eq_zero h0
        subst hb0
        exact b32_roundtrip_nil
      · exact b32_roundtrip_small b hb h1 (by omega)
    · have hsplit : b = b.take 5 ++ b.drop 5 := (List.take_append_drop 5 b).symm
      rw [hsplit]
      refine decode_cons_group (b.take 5) (b.drop 5) ?_ ?_ ?_
      · rw [List.length_take]
        omega
      · intro x hx
        exact hb x (List.take_subset _ _ hx)
      · refine ih (b.drop 5) ?_ ?_
        · rw [List.length_drop]
          omega
        · intro x hx
          exact hb x (List.drop_subset _ _ hx)

/-! ## Claim theorems -/

/-- Claim C1 (code_bug evidence): `hotp(S, 1)` is the 6-digit string
`"287082"`, which passes the digit/length guard, yet
`valid_hotp(S, "287082", 0, 3)` does not return the matching counter 1:
it raises `TypeError`, because the source converts the generated passcode
with `bytes(str)` (no encoding) and the user code with `bytes(int(code))`
(a zero-filled length-only buffer). -/
theorem valid_hotp_raises_type_error :
    valid_code "287082" = true ∧
    generate_hotp (encoded_secret rfc4226Key) 1 = .ok "287082" ∧
    valid_hotp (encoded_secret rfc4226Key) "287082" 0 3 = .error PyErr.typeError :=
  ⟨rfl, rfl, rfl⟩

/-- Claim C2 (code_bug evidence): at timestamp 59 with period 30 the TOTP
passcode is `"287082"`, yet `valid_totp(S, "287082", 30, 59)` does not
return true: it raises `TypeError`, because the source applies `bytes(...)`
to the `(passcode, remaining)` tuple whose first element is a string. -/
theorem valid_totp_raises_type_error :
    valid_code "287082" = true ∧
    generate_totp (encoded_secret rfc4226Key) 30 59 = .ok ("287082", 1) ∧
    valid_totp (encoded_secret rfc4226Key) "287082" 30 59 = .error PyErr.typeError :=
  ⟨rfl, rfl, rfl⟩

/-- Claim C3: the HMAC digest has 20 bytes; `generate_hotp` Base32-decodes
the secret and returns the dynamic truncation (offset from the low nibble
of byte 19, 4 big-endian bytes masked with `0x7FFFFFFF`, reduced mod
`1000000`, zero-padded to 6 digits) of the HMAC-SHA1 digest of the 8-byte
big-endian counter; and on the Base32-encoded RFC 4226 secret the counters
0..9 produce exactly the Appendix D passcodes. -/
theorem hotp_truncation_and_rfc4226_vectors :
    (∀ key msg : List Nat, (hmacSha1 key msg).length = 20) ∧
    (∀ (secret : String) (counter : Nat), counter < 2 ^ 64 →
      generate_hotp secret counter =
        (b32decode secret.toList).map fun key =>
          let digest := hmacSha1 key (beBytes 8 counter)
          format06
            ((beVal ((digest.drop (digest.getD 19 0 &&& 0x0f)).take 4) &&& 0x7fffffff)
              % 1000000)) ∧
    (List.range 10).map (fun k => generate_hotp (encoded_secret rfc4226Key) k) =
      [.ok "755224", .ok "287082", .ok "359152", .ok "969429", .ok "338314",
       .ok "254676", .ok "287922", .ok "162583", .ok "399871", .ok "520489"] := by
  refine ⟨hmacSha1_length, ?_, rfl⟩
  intro secret counter _
  unfold generate_hotp
  cases hb : b32decode secret.toList with
  | error e => rfl
  | ok key => rfl

/-- Witness for C3: the hypothesis `counter < 2^64` holds at counter 0 and
the theorem applies there. -/
theorem hotp_truncation_witness :
    (0 : Nat) < 2 ^ 64 ∧
    generate_hotp "" 0 =
      (b32decode ("" : String).toList).map fun key =>
        let digest := hmacSha1 key (beBytes 8 0)
        format06
          ((beVal ((digest.drop (digest.getD 19 0 &&& 0x0f)).take 4) &&& 0x7fffffff)
            % 1000000) :=
  ⟨by norm_num, hotp_truncation_and_rfc4226_vectors.2.1 "" 0 (by norm_num)⟩

/-- Claim C4: `generate_totp` returns the pair of `generate_hotp` at
counter `timestamp / period` and the remaining seconds
`period - timestamp % period`; at the window boundaries the remaining
seconds are `30, 29, 1, 30` for timestamps `30, 31, 59, 60` with period
30 (never 0 at a fresh window). -/
theorem totp_pair_and_remaining :
    (∀ (secret : String) (period timestamp : Nat), 0 < period →
      generate_totp secret period timestamp =
        (generate_hotp secret (timestamp / period)).map
          fun code => (code, period - timestamp % period)) ∧
    (generate_totp (encoded_secret rfc4226Key) 30 30).map Prod.snd = .ok 30 ∧
    (generate_totp (encoded_secret rfc4226Key) 30 31).map Prod.snd = .ok 29 ∧
    (generate_totp (encoded_secret rfc4226Key) 30 59).map Prod.snd = .ok 1 ∧
    (generate_totp (encoded_secret rfc4226Key) 30 60).map Prod.snd = .ok 30 := by
  refine ⟨?_, rfl, rfl, rfl, rfl⟩
  intro secret period timestamp _
  unfold generate_totp
  cases hb : generate_hotp secret (timestamp / period) with
  | error e => rfl
  | ok code => rfl

/-- Witness for C4: the hypothesis `0 < period` holds at period 30 and the
theorem applies there. -/
theorem totp_pair_witness :
    0 < 30 ∧
    generate_totp "" 30 45 =
      (generate_hotp "" (45 / 30)).map fun code => (code, 30 - 45 % 30) :=
  ⟨by norm_num, totp_pair_and_remaining.1 "" 30 45 (by norm_num)⟩

/-- Claim C6 (code_bug evidence): the guard is `str.isdigit()`, which
accepts the superscript digit `'²'`, so the malformed (non-decimal)
six-character code `"28708²"` passes it; `valid_hotp` then raises
`ValueError` from `int(code)` and `valid_totp` raises `TypeError` from
`bytes(...)` on the passcode tuple — neither returns its negative
result.  A code the guard does reject (here one containing the letter
`'a'`) does get the negative result without an exception. -/
theorem nondecimal_code_raises :
    valid_code "28708²" = true ∧
    valid_hotp (encoded_secret rfc4226Key) "28708²" 0 3 = .error PyErr.valueError ∧
    valid_totp (encoded_secret rfc4226Key) "28708²" 30 59 = .error PyErr.typeError ∧
    valid_code "28708a" = false ∧
    valid_hotp (encoded_secret rfc4226Key) "28708a" 0 3 = .ok none ∧
    valid_totp (encoded_secret rfc4226Key) "28708a" 30 59 = .ok false :=
  ⟨rfl, rfl, rfl, rfl, rfl, rfl⟩

/-- Claim C7: `to_uri` fails with an invalid-argument error exactly when
the case-normalized type is neither `hotp` nor `totp`, or the type is
`hotp` with an absent or falsy counter; otherwise it returns exactly
`otpauth://{type}/{label}?secret={secret}&issuer={issuer}`, with
`&counter={counter}` appended for `hotp`; the concrete no-counter call
fails and the counter-7 call succeeds with `counter=7` inside. -/
theorem to_uri_spec :
    (∀ (secret ty label issuer : String) (counter : Option Int),
      (∃ e, to_uri secret ty label issuer counter = .error e) ↔
        (¬(pyLowerStr ty = "hotp" ∨ pyLowerStr ty = "totp") ∨
         (pyLowerStr ty = "hotp" ∧ (counter = none ∨ counter = some 0)))) ∧
    (∀ (secret ty label issuer : String) (counter : Option Int),
      pyLowerStr ty = "totp" →
      to_uri secret ty label issuer counter =
        .ok ("otpauth://totp/" ++ label ++ "?secret=" ++ secret ++ "&issuer=" ++ issuer)) ∧
    (∀ (secret ty label issuer : String) (n : Int),
      pyLowerStr ty = "hotp" → n ≠ 0 →
      to_uri secret ty label issuer (some n) =
        .ok ("otpauth://hotp/" ++ label ++ "?secret=" ++ secret ++ "&issuer=" ++ issuer ++
          "&counter=" ++ pyStrOfInt n)) ∧
    to_uri "s" "hotp" "l" "i" none = .error PyErr.valueError ∧
    to_uri "s" "hotp" "l" "i" (some 7) = .ok "otpauth://hotp/l?secret=s&issuer=i&counter=7" ∧
    List.IsInfix "counter=7".toList "otpauth://hotp/l?secret=s&issuer=i&counter=7".toList := by
  refine ⟨?_, ?_, ?_, rfl, rfl, ?_⟩
  · intro secret ty label issuer counter
    unfold to_uri
    by_cases h1 : pyLowerStr ty = "hotp"
    · rw [h1]
      by_cases h3 : counter = none ∨ counter = some 0
      · rw [if_neg (by decide), if_pos ⟨rfl, h3⟩]
        simp [h1, h3]
      · rw [if_neg (by decide), if_neg (fun hh => h3 hh.2), if_pos rfl]
        simp [h1, h3]
    · by_cases h2 : pyLowerStr ty = "totp"
      · rw [h2]
        rw [if_neg (by decide), if_neg (by rintro ⟨heq, -⟩; exact absurd heq (by decide)),
          if_neg (by decide)]
        simp [h1, h2]
      · rw [if_pos (by rintro (hh | hh) <;> [exact h1 hh; exact h2 hh])]
        simp [h1, h2]
  · intro secret ty label issuer counter h
    unfold to_uri
    rw [h]
    rfl
  · intro secret ty label issuer n h hn
    unfold to_uri
    rw [h]
    rw [if_neg (by decide),
      if_neg (by
        rintro ⟨-, h'⟩
        rcases h' with h' | h'
        exacts [Option.noConfusion h', hn (by simpa using h')]),
      if_pos rfl]
    rfl
  · exact ⟨"otpauth://hotp/l?secret=s&issuer=i&".toList, [], by decide⟩

/-- Witness for C7: the case-normalization hypothesis holds at `"TOTP"`
and the theorem applies there. -/
theorem to_uri_witness :
    to_uri "x" "TOTP" "l" "i" none =
      .ok ("otpauth://totp/" ++ "l" ++ "?secret=" ++ "x" ++ "&issuer=" ++ "i") :=
  to_uri_spec.2.1 "x" "TOTP" "l" "i" none (by decide)

theorem nat_or_eq_zero (m n : Nat) : m ||| n = 0 ↔ m = 0 ∧ n = 0 := by
  constructor
  · intro h
    constructor <;>
      refine Nat.eq_of_testBit_eq fun i => ?_
    · have hb := congrArg (fun x => Nat.testBit x i) h
      simp only [Nat.testBit_or, Nat.zero_testBit, Bool.or_eq_false_iff] at hb
      simp [Nat.zero_testBit, hb.1]
    · have hb := congrArg (fun x => Nat.testBit x i) h
      simp only [Nat.testBit_or, Nat.zero_testBit, Bool.or_eq_false_iff] at hb
      simp [Nat.zero_testBit, hb.2]
  · rintro ⟨rfl, rfl⟩; rfl

theorem or_xor_fold_zero :
    ∀ (l : List (Nat × Nat)) (rv : Nat),
      (l.foldl (fun rv xy => rv ||| (xy.1 ^^^ xy.2)) rv = 0 ↔
        rv = 0 ∧ ∀ p ∈ l, p.1 = p.2) := by
  intro l
  induction l with
  | nil => intro rv; simp
  | cons x xs ih =>
    intro rv
    rw [List.foldl_cons, ih]
    constructor
    · rintro ⟨h0, hall⟩
      rcases (nat_or_eq_zero _ _).mp h0 with ⟨hrv, hx⟩
      refine ⟨hrv, fun p hp => ?_⟩
      rcases List.mem_cons.mp hp with rfl | hp
      · exact Nat.xor_eq_zero.mp hx
      · exact hall p hp
    · rintro ⟨rfl, hall⟩
      refine ⟨?_, fun p hp => hall p (List.mem_cons_of_mem _ hp)⟩
      have hx : x.1 ^^^ x.2 = 0 := Nat.xor_eq_zero.mpr (hall x (List.mem_cons_self _ _))
      simp [hx]

theorem zip_pairs_eq_iff :
    ∀ (a b : List Nat), a.length = b.length → ((∀ p ∈ a.zip b, p.1 = p.2) ↔ a = b) := by
  intro a
  induction a with
  | nil =>
    intro b h
    cases b with
    | nil => simp
    | cons y ys => simp at h
  | cons x xs ih =>
    intro b h
    cases b with
    | nil => simp at h
    | cons y ys =>
      simp only [List.zip_cons_cons, List.mem_cons, List.cons.injEq]
      constructor
      · intro hall
        have hx : x = y := hall (x, y) (Or.inl rfl)
        have hxs : xs = ys := (ih ys (by simpa using h)).mp fun p hp => hall p (Or.inr hp)
        exact ⟨hx, hxs⟩
      · rintro ⟨rfl, rfl⟩
        intro p hp
        rcases hp with rfl | hp
        · rfl
        · exact (ih xs rfl).mpr rfl p hp

/-- Claim C8: the fallback comparison returns false on differing lengths
and otherwise the accumulated OR-of-XOR is zero exactly for equal byte
sequences, so `compare_digest` computes plain sequence equality. -/
theorem compare_digest_is_equality :
    ∀ a b : List Nat, compare_digest a b = decide (a = b) := by
  intro a b
  unfold compare_digest
  by_cases hl : a.length = b.length
  · rw [if_neg (by simpa using hl)]
    rw [decide_eq_decide, or_xor_fold_zero]
    rw [zip_pairs_eq_iff a b hl]
    simp
  · rw [if_pos (by simpa using hl)]
    have hne : a ≠ b := fun hh => hl (hh ▸ rfl)
    simp [hne]

/-- Claim C9: `from_json` equals the spec's single fallible parse — a
raised load error or any missing key yields `none`, and a `some` result
carries all four fields from the parsed dictionary; no partially
populated credential is representable in its image. -/
theorem from_json_all_or_nothing : ∀ r, from_json r = specParse r := by
  intro r
  cases r with
  | error e => rfl
  | ok d =>
    simp only [from_json, from_jsonE, specParse, dictPop, Except.toOption, bind, Except.bind,
      Option.bind]
    cases h1 : d.lookup "type" with
    | none => simp
    | some tv =>
      cases h2 : type_from_str tv with
      | error e => simp [h2]
      | ok k =>
        simp only [h2]
        cases h3 : (d.eraseP fun p => p.1 == "type").lookup "name" with
        | none => simp
        | some nv =>
          cases h4 : ((d.eraseP fun p => p.1 == "type").eraseP fun p => p.1 == "name").lookup
              "secret" with
          | none => simp [h4]
          | some sv =>
            cases h5 : (((d.eraseP fun p => p.1 == "type").eraseP fun p => p.1 == "name").eraseP
                fun p => p.1 == "secret").lookup "issuer" with
            | none => simp [h4, h5]
            | some iv => simp [h4, h5]

/-- Claim C10: a dictionary holding all four keys whose type string
case-normalizes to neither `totp` nor `hotp` parses successfully to a
credential with the distinct sentinel kind `UNKNOWN`. -/
theorem unknown_type_credential :
    ∀ (d : PyDict) (ts : String) (nv sv iv : PyVal),
      d.lookup "type" = some (.vstr ts) →
      pyLowerStr ts ≠ "totp" →
      pyLowerStr ts ≠ "hotp" →
      (d.eraseP fun p => p.1 == "type").lookup "name" = some nv →
      ((d.eraseP fun p => p.1 == "type").eraseP fun p => p.1 == "name").lookup "secret" =
        some sv →
      (((d.eraseP fun p => p.1 == "type").eraseP fun p => p.1 == "name").eraseP
          fun p => p.1 == "secret").lookup "issuer" = some iv →
      from_json (.ok d) = some ⟨OTPType.UNKNOWN, nv, sv, iv⟩ ∧
      OTPType.UNKNOWN ≠ OTPType.HOTP ∧ OTPType.UNKNOWN ≠ OTPType.TOTP := by
  intro d ts nv sv iv h1 ht hh h3 h4 h5
  refine ⟨?_, by decide, by decide⟩
  have h2 : type_from_str (.vstr ts) = .ok OTPType.UNKNOWN := by
    simp [type_from_str, pyLower, bind, Except.bind, ht, hh]
  simp only [from_json, from_jsonE, dictPop, bind, Except.bind, h1, h2, h3, h4, h5,
    Except.toOption]

/-- Witness for C10: a concrete four-key dictionary with type string
`"xyz"`, at which every hypothesis holds and the theorem applies. -/
theorem unknown_type_witness :
    from_json (.ok [("type", PyVal.vstr "xyz"), ("name", PyVal.vstr "n"),
        ("secret", PyVal.vstr "s"), ("issuer", PyVal.vstr "i")]) =
      some ⟨OTPType.UNKNOWN, PyVal.vstr "n", PyVal.vstr "s", PyVal.vstr "i"⟩ ∧
    OTPType.UNKNOWN ≠ OTPType.HOTP ∧ OTPType.UNKNOWN ≠ OTPType.TOTP :=
  unknown_type_credential
    [("type", PyVal.vstr "xyz"), ("name", PyVal.vstr "n"),
     ("secret", PyVal.vstr "s"), ("issuer", PyVal.vstr "i")]
    "xyz" (PyVal.vstr "n") (PyVal.vstr "s") (PyVal.vstr "i")
    rfl (by decide) (by decide) rfl rfl rfl


/-- Claim C5: for every non-empty byte sequence, Base32-encoding with the
trailing pad characters stripped (`encoded_secret`) followed by the spec's
re-padding decode recovers the original bytes, including lengths that are
not a multiple of 5. -/
theorem base32_round_trip :
    ∀ b : List Nat, b ≠ [] → (∀ x ∈ b, x < 256) →
      decodeRepad (encoded_secret b) = .ok b := by
  intro b hb hbytes
  obtain ⟨hmem, hmod8, hparts, hple, hne⟩ := b32encode_parts b
  obtain ⟨hXne, h8⟩ := hne hb
  set X := rstripEq (b32encode b) with hX
  set p := (b32encode b).length - X.length with hp
  have hlen_eq : (b32encode b).length = X.length + p := by
    have := congrArg List.length hparts
    rw [List.length_append, List.length_replicate] at this
    omega
  have hstrip : stripEq (b32encode b) = X := by
    rw [hparts]
    exact stripEq_append_pad X p hmem hXne
  have hES : encoded_secret b = ⟨X⟩ := by
    unfold encoded_secret
    rw [hstrip]
  rw [hES]
  simp only [decodeRepad]
  have htl : (String.mk X).toList = X := rfl
  rw [htl]
  have hq : (8 - X.length % 8) % 8 = p := by omega
  rw [hq, ← hparts]
  exact b32_roundtrip_len b.length b (le_refl _) hbytes

/-- Witness for C5: the theorem applies at the 3-byte sequence
`[1, 2, 3]` (a length not a multiple of 5). -/
theorem base32_round_trip_witness :
    decodeRepad (encoded_secret [1, 2, 3]) = .ok [1, 2, 3] :=
  base32_round_trip [1, 2, 3] (by decide) (by decide)

end PassStore
